import Mathlib

/-!
Shallow embedding of the spreadsheet (xlsx) codec implemented in
`scripts/fetch_linkedin_bios.py`: the column address codec
(`column_letters_to_index` / `column_index_to_letters`), the shared-string
table reader (`read_shared_strings`), the cell value resolver
(`extract_cell_text`), the worksheet reader (`read_rows_from_workbook`)
and the worksheet writer (`build_sheet_xml` / `write_rows_to_workbook`),
together with proofs of the specified properties.

The zip/XML layers are embedded at the element level: an archive is a
record of the two parts the codec touches, and an XML element is a record
of the attributes and child texts the code reads.  Text content stored in
a serialized part is XML-escaped on write and entity-decoded on parse;
both directions are modelled explicitly (`escapeXml` / `unescapeXml`).
-/

/-- Loop of `column_index_to_letters` (source lines 318–322): Python's
`while current: current, remainder = divmod(current - 1, 26);
result = chr(ord("A") + remainder) + result`, with the pending `result`
list as accumulator. -/
def indexLettersLoop : Nat → List Char → List Char
  | 0, acc => acc
  | current + 1, acc =>
    indexLettersLoop (current / 26) (Char.ofNat (65 + current % 26) :: acc)
termination_by cur _ => cur
decreasing_by exact Nat.lt_succ_of_le (Nat.div_le_self current 26)

/-- `column_index_to_letters` (source lines 314–323): bijective base-26
encoding of a 0-based column index.  The source raises `ValueError` on a
negative index, so the embedding takes a `Nat`. -/
def column_index_to_letters (index : Nat) : String :=
  ⟨indexLettersLoop (index + 1) []⟩

/-- Loop of `column_letters_to_index` (source lines 306–310):
`index = index * 26 + (ord(char.upper()) - ord("A") + 1)` over the
characters, stopping (`break`) at the first non-alphabetic one. -/
def lettersIndexLoop : List Char → Nat → Nat
  | [], acc => acc
  | c :: cs, acc =>
    if c.isAlpha then lettersIndexLoop cs (acc * 26 + (c.toUpper.toNat - 64)) else acc

/-- `column_letters_to_index` (source lines 304–311): the accumulated
value minus one; empty or malformed input therefore yields `-1`. -/
def column_letters_to_index (column : String) : Int :=
  (lettersIndexLoop column.data 0 : Int) - 1

/-- Value accumulated by `lettersIndexLoop` while it consumes exactly the
digit string that `indexLettersLoop cur` prepends, starting from
accumulator `a`. -/
def lettersValOf : Nat → Nat → Nat
  | 0, a => a
  | c + 1, a => lettersValOf (c / 26) a * 26 + (c % 26 + 1)
termination_by cur _ => cur
decreasing_by exact Nat.lt_succ_of_le (Nat.div_le_self c 26)

theorem lettersValOf_self (cur : Nat) : lettersValOf cur 0 = cur := by
  induction cur using Nat.strong_induction_on with
  | _ cur ih =>
    match cur with
    | 0 => simp [lettersValOf]
    | c + 1 =>
      rw [lettersValOf, ih (c / 26) (Nat.lt_succ_of_le (Nat.div_le_self c 26))]
      have h := Nat.div_add_mod c 26
      omega

theorem upperChar_facts (r : Nat) (hr : r < 26) :
    (Char.ofNat (65 + r)).isAlpha = true ∧ (Char.ofNat (65 + r)).toUpper.toNat - 64 = r + 1 := by
  interval_cases r <;> exact ⟨by decide, by decide⟩

theorem lettersIndexLoop_indexLettersLoop (cur : Nat) : ∀ acc a,
    lettersIndexLoop (indexLettersLoop cur acc) a
      = lettersIndexLoop acc (lettersValOf cur a) := by
  induction cur using Nat.strong_induction_on with
  | _ cur ih =>
    match cur with
    | 0 => intro acc a; simp [indexLettersLoop, lettersValOf]
    | c + 1 =>
      intro acc a
      have hr : c % 26 < 26 := Nat.mod_lt _ (by norm_num)
      rw [indexLettersLoop, ih (c / 26) (Nat.lt_succ_of_le (Nat.div_le_self c 26))]
      rw [lettersIndexLoop, if_pos (upperChar_facts (c % 26) hr).1,
        (upperChar_facts (c % 26) hr).2, lettersValOf]

/-- The round trip at the heart of the column codec: decoding the letters
produced for index `n` accumulates `n + 1`, hence index `n` again. -/
theorem letters_index_round (n : Nat) :
    column_letters_to_index (column_index_to_letters n) = (n : Int) := by
  unfold column_letters_to_index column_index_to_letters
  have h : (String.mk (indexLettersLoop (n + 1) [])).data = indexLettersLoop (n + 1) [] := rfl
  rw [h, lettersIndexLoop_indexLettersLoop, lettersIndexLoop, lettersValOf_self]
  push_cast
  ring

/-- C2: `column_letters_to_index (column_index_to_letters n) = n` for every
non-negative integer `n`, and the conversion sends 0 to "A", 25 to "Z" and
26 to "AA" (bijective base-26 round trip). -/
theorem c2_column_codec_round_trip :
    (∀ n : Nat, column_letters_to_index (column_index_to_letters n) = (n : Int)) ∧
    column_index_to_letters 0 = "A" ∧ column_index_to_letters 25 = "Z" ∧
    column_index_to_letters 26 = "AA" := by
  refine ⟨letters_index_round, ?_, ?_, ?_⟩ <;>
    simp [column_index_to_letters, indexLettersLoop]

/-- `xml.sax.saxutils.escape` as used by `build_sheet_xml` (source line
446): the source applies `str.replace` for `&`, then `<`, then `>`; for
these three patterns that chain equals this single left-to-right pass. -/
def escapeList : List Char → List Char
  | [] => []
  | c :: cs =>
    (if c = '&' then ['&', 'a', 'm', 'p', ';']
     else if c = '<' then ['&', 'l', 't', ';']
     else if c = '>' then ['&', 'g', 't', ';'] else [c]) ++ escapeList cs

def escapeXml (s : String) : String := ⟨escapeList s.data⟩

/-- Entity decoding performed by the XML parser (`ET.fromstring`) on text
node character data, for the entities the writer can emit. -/
def unescapeList : List Char → List Char
  | '&' :: 'a' :: 'm' :: 'p' :: ';' :: cs => '&' :: unescapeList cs
  | '&' :: 'l' :: 't' :: ';' :: cs => '<' :: unescapeList cs
  | '&' :: 'g' :: 't' :: ';' :: cs => '>' :: unescapeList cs
  | c :: cs => c :: unescapeList cs
  | [] => []

def unescapeXml (s : String) : String := ⟨unescapeList s.data⟩

theorem unescapeList_cons_ne (c : Char) (cs : List Char) (h : c ≠ '&') :
    unescapeList (c :: cs) = c :: unescapeList cs := by
  rw [unescapeList.eq_def]
  split <;> simp_all

/-- Entity decoding undoes the writer's escaping on every string. -/
theorem unescape_escape (l : List Char) : unescapeList (escapeList l) = l := by
  induction l with
  | nil => rfl
  | cons c cs ih =>
    by_cases h1 : c = '&'
    · subst h1
      rw [show escapeList ('&' :: cs) = '&' :: 'a' :: 'm' :: 'p' :: ';' :: escapeList cs from rfl,
        show ∀ r, unescapeList ('&' :: 'a' :: 'm' :: 'p' :: ';' :: r) = '&' :: unescapeList r
          from fun _ => rfl, ih]
    · by_cases h2 : c = '<'
      · subst h2
        rw [show escapeList ('<' :: cs) = '&' :: 'l' :: 't' :: ';' :: escapeList cs from rfl,
          show ∀ r, unescapeList ('&' :: 'l' :: 't' :: ';' :: r) = '<' :: unescapeList r
            from fun _ => rfl, ih]
      · by_cases h3 : c = '>'
        · subst h3
          rw [show escapeList ('>' :: cs) = '&' :: 'g' :: 't' :: ';' :: escapeList cs from rfl,
            show ∀ r, unescapeList ('&' :: 'g' :: 't' :: ';' :: r) = '>' :: unescapeList r
              from fun _ => rfl, ih]
        · rw [escapeList]
          simp only [if_neg h1, if_neg h2, if_neg h3, List.singleton_append]
          rw [unescapeList_cons_ne c _ h1, ih]

theorem unescapeXml_escapeXml (s : String) : unescapeXml (escapeXml s) = s := by
  cases s with
  | mk data => exact congrArg String.mk (unescape_escape data)

/-- One `c` (cell) element as the reader sees it after XML parsing: the
`r` and `t` attributes, the text of the `v` child (`findtext` collapses a
missing `v` child and an empty text to `""`), and the decoded texts of the
`is/t` descendants (`None` for a `t` node without text). -/
structure CellElem where
  r : String
  t : Option String
  v : String
  isTexts : List (Option String)
deriving DecidableEq

/-- One `row` element: its `r` attribute and its `c` children. -/
structure RowElem where
  r : String
  cells : List CellElem
deriving DecidableEq

/-- One `si` (shared string item) element: `t` is the text of a direct `t`
child when that child exists and has text, and `runs` are the texts of the
`r/t` descendants (`none` when the run has no `t` child or no text). -/
structure SiElem where
  t : Option String
  runs : List (Option String)
deriving DecidableEq

/-- The parsed worksheet part: its `sheetData` child, if present, holds
the row elements in document order. -/
structure SheetElem where
  sheetData : Option (List RowElem)
deriving DecidableEq

/-- The archive as the codec sees it: the two zip entries it reads.
`none` means the entry is absent (`zf.read` raises `KeyError`). -/
structure Archive where
  sharedStringsPart : Option (List SiElem)
  sheet1Part : Option SheetElem
deriving DecidableEq

/-- `read_shared_strings` (source lines 326–345): `[]` when the entry is
missing; otherwise one flat string per `si`, preferring the direct `t`
child's text and falling back to concatenating the run texts. -/
def read_shared_strings (zf : Archive) : List String :=
  match zf.sharedStringsPart with
  | none => []
  | some sis =>
    sis.map fun si =>
      match si.t with
      | some s => s
      | none => String.join (si.runs.filterMap id)

def digitsVal (ds : List Char) : Nat :=
  ds.foldl (fun a c => a * 10 + (c.toNat - 48)) 0

/-- Python's `int(str)` on the relevant inputs: optional surrounding
whitespace, an optional sign, then a non-empty run of decimal digits;
anything else raises `ValueError`, i.e. `none`. -/
def parseIntOpt (s : String) : Option Int :=
  match ((s.data.dropWhile Char.isWhitespace).reverse.dropWhile Char.isWhitespace).reverse with
  | '-' :: ds => if ds ≠ [] ∧ ds.all Char.isDigit then some (-(digitsVal ds : Int)) else none
  | '+' :: ds => if ds ≠ [] ∧ ds.all Char.isDigit then some ((digitsVal ds : Int)) else none
  | ds => if ds ≠ [] ∧ ds.all Char.isDigit then some ((digitsVal ds : Int)) else none

/-- Python list subscription `l[i]` for `i : Int`: negative indices count
from the end; `none` is `IndexError`. -/
def pyListGet (l : List String) (i : Int) : Option String :=
  let j : Int := if i < 0 then (l.length : Int) + i else i
  if 0 ≤ j ∧ j < (l.length : Int) then some (l.getD j.toNat "") else none

/-- `extract_cell_text` (source lines 348–366): dispatch on the `t`
attribute; shared-string cells look the parsed `v` text up in the table
with `ValueError`/`IndexError` recovered as `""`; inline-string cells
concatenate the `is/t` texts; anything else returns the raw `v` text. -/
def extract_cell_text (cell : CellElem) (shared : List String) : String :=
  match cell.t with
  | some "s" =>
    if cell.v = "" then ""
    else
      match parseIntOpt cell.v with
      | none => ""
      | some i => (pyListGet shared i).getD ""
  | some "inlineStr" => String.join (cell.isTexts.map fun o => o.getD "")
  | _ => cell.v

inductive PackageReadError where
  | missingWorksheet
deriving DecidableEq

/-- Outcome of `read_rows_from_workbook`: a returned table, or a raised
`PackageReadError`. -/
inductive ReadResult where
  | ok (table : List (List String))
  | error (e : PackageReadError)
deriving DecidableEq

/-- Inner loop of `read_rows_from_workbook` (source lines 379–388) over
one row's `c` children: keep the alphabetic characters of the `r`
attribute, skip the cell when there are none, otherwise record
`(column_index, value)` (last write wins, as in the Python dict) and
raise `max_col` to `column_index + 1`. -/
def readCellsLoop (shared : List String) : List CellElem → Int → List (Int × String) × Int
  | [], maxCol => ([], maxCol)
  | cell :: cs, maxCol =>
    let letters : List Char := cell.r.data.filter Char.isAlpha
    if letters.isEmpty then readCellsLoop shared cs maxCol
    else
      let columnIndex := column_letters_to_index ⟨letters⟩
      let value := extract_cell_text cell shared
      let rest := readCellsLoop shared cs (max maxCol (columnIndex + 1))
      ((columnIndex, value) :: rest.1, rest.2)

/-- Outer loop of `read_rows_from_workbook` (source lines 377–389): one
sparse mapping per row element, threading `max_col` through. -/
def readRowsLoop (shared : List String) : List RowElem → Int → List (List (Int × String)) × Int
  | [], maxCol => ([], maxCol)
  | row :: rs, maxCol =>
    let this := readCellsLoop shared row.cells maxCol
    let rest := readRowsLoop shared rs this.2
    (this.1 :: rest.1, rest.2)

/-- Python `dict` built by successive assignments, queried with
`mapping.get(idx, "")`: the last binding for a key wins. -/
def pyDictGet (m : List (Int × String)) (k : Int) : Option String :=
  m.foldl (fun acc p => if p.1 = k then some p.2 else acc) none

/-- Materialization step of `read_rows_from_workbook` (source lines
390–394): every sparse row becomes a dense row of width `max_col`. -/
def read_sheet_rows (shared : List String) (rowElems : List RowElem) : List (List String) :=
  let scanned := readRowsLoop shared rowElems 0
  scanned.1.map fun mapping =>
    (List.range scanned.2.toNat).map fun idx => (pyDictGet mapping (Int.ofNat idx)).getD ""

/-- `read_rows_from_workbook` (source lines 369–395): `KeyError` on a
missing worksheet entry propagates (the spec's `PackageReadError`); a
worksheet without a `sheetData` element yields `[]`; otherwise the sheet
rows are scanned and materialized. -/
def read_rows_from_workbook (zf : Archive) : ReadResult :=
  match zf.sheet1Part with
  | none => ReadResult.error PackageReadError.missingWorksheet
  | some sheet =>
    let shared_strings := read_shared_strings zf
    match sheet.sheetData with
    | none => ReadResult.ok []
    | some rowElems => ReadResult.ok (read_sheet_rows shared_strings rowElems)

/-- The cell element that parsing `build_sheet_xml`'s serialized inline
cell yields (source lines 456–464): address
`column_index_to_letters colIdx ++ toString rowIdx`, attribute
`t="inlineStr"`, no `v` child, and one `is/t` text holding the entity
decoding of the escaped value. -/
def inlineCellElem (rowIdx : Nat) (colIdx : Nat) (value : String) : CellElem :=
  { r := column_index_to_letters colIdx ++ toString rowIdx
    t := some "inlineStr"
    v := ""
    isTexts := [some (unescapeXml (escapeXml value))] }

/-- Per-row cell loop of `build_sheet_xml` (source lines 453–464), a
0-based rendering of `enumerate(row, start=1)` with `col_idx - 1`: cells
holding `""` are skipped entirely. -/
def buildCellsLoop (rowIdx : Nat) : Nat → List String → List CellElem
  | _, [] => []
  | colIdx, value :: rest =>
    if value = "" then buildCellsLoop rowIdx (colIdx + 1) rest
    else inlineCellElem rowIdx colIdx value :: buildCellsLoop rowIdx (colIdx + 1) rest

/-- Row loop of `build_sheet_xml` (source lines 452–470) at the element
level: every input row yields one row element, numbered from 1, whether or
not it has any cells. -/
def buildRowsLoop : Nat → List (List String) → List RowElem
  | _, [] => []
  | rowIdx, row :: rest =>
    { r := toString rowIdx, cells := buildCellsLoop rowIdx 0 row }
      :: buildRowsLoop (rowIdx + 1) rest

/-- `write_rows_to_workbook` (source lines 478–512) as the reader will see
the written archive: no shared-strings entry is written, and the worksheet
entry at the sheet-1 location holds exactly the rows serialized by
`build_sheet_xml` (`sanitize_rows` is the identity on a table that already
consists of strings). -/
def write_rows_to_workbook (rows : List (List String)) : Archive :=
  { sharedStringsPart := none
    sheet1Part := some { sheetData := some (buildRowsLoop 1 rows) } }

theorem indexLettersLoop_append (cur : Nat) : ∀ acc,
    indexLettersLoop cur acc = indexLettersLoop cur [] ++ acc := by
  induction cur using Nat.strong_induction_on with
  | _ cur ih =>
    match cur with
    | 0 => intro acc; simp [indexLettersLoop]
    | c + 1 =>
      intro acc
      have hlt := Nat.lt_succ_of_le (Nat.div_le_self c 26)
      rw [indexLettersLoop, ih (c / 26) hlt, indexLettersLoop,
        ih (c / 26) hlt (Char.ofNat (65 + c % 26) :: [])]
      simp

theorem indexLettersLoop_alpha (cur : Nat) : ∀ acc,
    (∀ c ∈ acc, c.isAlpha = true) → ∀ c ∈ indexLettersLoop cur acc, c.isAlpha = true := by
  induction cur using Nat.strong_induction_on with
  | _ cur ih =>
    match cur with
    | 0 => intro acc hacc; simpa [indexLettersLoop] using hacc
    | c + 1 =>
      intro acc hacc
      rw [indexLettersLoop]
      refine ih (c / 26) (Nat.lt_succ_of_le (Nat.div_le_self c 26)) _ ?_
      intro d hd
      rcases List.mem_cons.mp hd with h | h
      · subst h; exact (upperChar_facts (c % 26) (Nat.mod_lt _ (by norm_num))).1
      · exact hacc d h

theorem column_index_to_letters_alpha (n : Nat) :
    ∀ c ∈ (column_index_to_letters n).data, c.isAlpha = true :=
  indexLettersLoop_alpha (n + 1) [] (by intro c hc; cases hc)

theorem column_index_to_letters_ne_nil (n : Nat) :
    (column_index_to_letters n).data ≠ [] := by
  show indexLettersLoop (n + 1) [] ≠ []
  rw [indexLettersLoop, indexLettersLoop_append]
  simp

theorem toDigitsCore_not_alpha : ∀ (fuel n : Nat) (ds : List Char),
    (∀ c ∈ ds, c.isAlpha = false) → ∀ c ∈ Nat.toDigitsCore 10 fuel n ds, c.isAlpha = false := by
  intro fuel
  induction fuel with
  | zero => intro n ds h; exact h
  | succ f ih =>
    intro n ds h c hc
    have hd : ∀ e ∈ Nat.digitChar (n % 10) :: ds, e.isAlpha = false := by
      intro e he
      rcases List.mem_cons.mp he with h1 | h1
      · subst h1
        have hm : n % 10 < 10 := Nat.mod_lt _ (by norm_num)
        set r := n % 10 with hr
        interval_cases r <;> decide
      · exact h e h1
    rw [Nat.toDigitsCore] at hc
    by_cases hz : n / 10 = 0
    · rw [if_pos hz] at hc
      exact hd c hc
    · rw [if_neg hz] at hc
      exact ih (n / 10) _ hd c hc

theorem natToString_not_alpha (n : Nat) :
    ∀ c ∈ (toString n).data, c.isAlpha = false := by
  show ∀ c ∈ Nat.toDigitsCore 10 (n + 1) n [], c.isAlpha = false
  exact toDigitsCore_not_alpha (n + 1) n [] (by intro c hc; cases hc)

theorem inlineCell_letters (rowIdx colIdx : Nat) (v : String) :
    (inlineCellElem rowIdx colIdx v).r.data.filter Char.isAlpha
      = (column_index_to_letters colIdx).data := by
  show ((column_index_to_letters colIdx ++ toString rowIdx).data).filter Char.isAlpha = _
  rw [String.data_append, List.filter_append,
    List.filter_eq_self.mpr (column_index_to_letters_alpha colIdx)]
  rw [List.filter_eq_nil_iff.mpr (by
    intro c hc
    simp [natToString_not_alpha rowIdx c hc]), List.append_nil]

theorem cli_of_itl_data (colIdx : Nat) :
    column_letters_to_index ⟨(column_index_to_letters colIdx).data⟩ = (colIdx : Int) :=
  letters_index_round colIdx

theorem extract_inlineCellElem (rowIdx colIdx : Nat) (v : String) (shared : List String) :
    extract_cell_text (inlineCellElem rowIdx colIdx v) shared = v := by
  show String.join [unescapeXml (escapeXml v)] = v
  rw [unescapeXml_escapeXml]
  show "" ++ v = v
  exact String.empty_append v

/-- Sparse view of a written row: the non-empty cells with their 0-based
column indices, starting at `colIdx`. -/
def sparseOfRow : Nat → List String → List (Int × String)
  | _, [] => []
  | colIdx, v :: vs =>
    if v = "" then sparseOfRow (colIdx + 1) vs
    else ((colIdx : Int), v) :: sparseOfRow (colIdx + 1) vs

/-- `max_col` accumulation over one written row, starting at `colIdx`. -/
def widAux : Nat → List String → Int → Int
  | _, [], mc => mc
  | colIdx, v :: vs, mc =>
    if v = "" then widAux (colIdx + 1) vs mc
    else widAux (colIdx + 1) vs (max mc ((colIdx : Int) + 1))

/-- Scanning the cells written for one row recovers exactly the sparse
view of the row and the expected `max_col` update. -/
theorem readCells_buildCells (shared : List String) (rowIdx : Nat) :
    ∀ (row : List String) (colIdx : Nat) (mc : Int),
      readCellsLoop shared (buildCellsLoop rowIdx colIdx row) mc
        = (sparseOfRow colIdx row, widAux colIdx row mc) := by
  intro row
  induction row with
  | nil => intro colIdx mc; rfl
  | cons v vs ih =>
    intro colIdx mc
    by_cases hv : v = ""
    · rw [buildCellsLoop, if_pos hv, ih, sparseOfRow, if_pos hv, widAux, if_pos hv]
    · rw [buildCellsLoop, if_neg hv, readCellsLoop]
      simp only [inlineCell_letters, List.isEmpty_eq_true,
        column_index_to_letters_ne_nil colIdx, if_false]
      have hmk : (⟨(column_index_to_letters colIdx).data⟩ : String)
          = column_index_to_letters colIdx := rfl
      rw [hmk, letters_index_round colIdx, extract_inlineCellElem, ih,
        sparseOfRow, if_neg hv, widAux, if_neg hv]

theorem foldl_get_no_match (k : Int) :
    ∀ (m : List (Int × String)) (acc : Option String), (∀ p ∈ m, p.1 ≠ k) →
      m.foldl (fun acc p => if p.1 = k then some p.2 else acc) acc = acc := by
  intro m
  induction m with
  | nil => intro acc _; rfl
  | cons p ps ih =>
    intro acc h
    rw [List.foldl_cons, if_neg (h p (List.mem_cons_self p ps))]
    exact ih acc fun q hq => h q (List.mem_cons_of_mem p hq)

theorem sparseOfRow_keys : ∀ (r : List String) (colIdx : Nat),
    ∀ p ∈ sparseOfRow colIdx r, (colIdx : Int) ≤ p.1 := by
  intro r
  induction r with
  | nil => intro colIdx p hp; cases hp
  | cons v vs ih =>
    intro colIdx p hp
    rw [sparseOfRow] at hp
    by_cases hv : v = ""
    · rw [if_pos hv] at hp
      have := ih (colIdx + 1) p hp
      push_cast at this ⊢
      omega
    · rw [if_neg hv] at hp
      rcases List.mem_cons.mp hp with h | h
      · subst h; simp
      · have := ih (colIdx + 1) p h
        push_cast at this ⊢
        omega

/-- Looking a column index up in the sparse view of a row is `List.getD`
on the row, with unwritten positions defaulting to `""`. -/
theorem pyDictGet_sparseOfRow : ∀ (r : List String) (colIdx j : Nat),
    (pyDictGet (sparseOfRow colIdx r) ((colIdx + j : Nat) : Int)).getD ""
      = r.getD j "" := by
  intro r
  induction r with
  | nil => intro colIdx j; rfl
  | cons v vs ih =>
    intro colIdx j
    rw [sparseOfRow]
    by_cases hv : v = ""
    · rw [if_pos hv]
      match j with
      | 0 =>
        have hk : pyDictGet (sparseOfRow (colIdx + 1) vs) ((colIdx + 0 : Nat) : Int) = none := by
          refine foldl_get_no_match _ _ none fun p hp => ?_
          have := sparseOfRow_keys vs (colIdx + 1) p hp
          push_cast at this ⊢
          omega
        rw [hk]
        simp [hv]
      | j' + 1 =>
        have hc : ((colIdx + (j' + 1) : Nat) : Int) = (((colIdx + 1) + j' : Nat) : Int) := by
          push_cast; omega
        rw [hc, ih (colIdx + 1) j']
        simp
    · rw [if_neg hv]
      match j with
      | 0 =>
        show (List.foldl _ (if ((colIdx : Nat) : Int) = ((colIdx + 0 : Nat) : Int) then some v
          else none) _).getD "" = _
        rw [if_pos (by push_cast; omega)]
        rw [foldl_get_no_match _ _ (some v) fun p hp => ?_]
        · simp
        · have := sparseOfRow_keys vs (colIdx + 1) p hp
          push_cast at this ⊢
          omega
      | j' + 1 =>
        show (List.foldl _ (if ((colIdx : Nat) : Int) = ((colIdx + (j' + 1) : Nat) : Int)
          then some v else none) _).getD "" = _
        rw [if_neg (by push_cast; omega)]
        have hc : ((colIdx + (j' + 1) : Nat) : Int) = (((colIdx + 1) + j' : Nat) : Int) := by
          push_cast; omega
        rw [hc]
        exact ih (colIdx + 1) j'

/-- One plus the largest column (counting from `colIdx`) holding a
non-empty cell in the row; `0` when every cell is empty. -/
def rowWidFrom : Nat → List String → Nat
  | _, [] => 0
  | colIdx, v :: vs =>
    if v = "" then rowWidFrom (colIdx + 1) vs
    else max (colIdx + 1) (rowWidFrom (colIdx + 1) vs)

/-- The width the written sheet determines: the maximum over all rows of
one plus the position of the row's last non-empty cell (`0` when no cell
anywhere is non-empty). -/
def effWidth : List (List String) → Nat
  | [] => 0
  | r :: rs => max (rowWidFrom 0 r) (effWidth rs)

theorem widAux_eq : ∀ (r : List String) (colIdx : Nat) (mc : Int), 0 ≤ mc →
    widAux colIdx r mc = max mc ((rowWidFrom colIdx r : Nat) : Int) := by
  intro r
  induction r with
  | nil => intro colIdx mc h; rw [widAux, rowWidFrom]; omega
  | cons v vs ih =>
    intro colIdx mc h
    rw [widAux, rowWidFrom]
    by_cases hv : v = ""
    · rw [if_pos hv, if_pos hv, ih _ _ h]
    · rw [if_neg hv, if_neg hv, ih _ _ (by omega)]
      push_cast
      omega

/-- `max_col` accumulation across the written rows. -/
def widRows : List (List String) → Int → Int
  | [], mc => mc
  | r :: rs, mc => widRows rs (widAux 0 r mc)

theorem widRows_eq : ∀ (rows : List (List String)) (mc : Int), 0 ≤ mc →
    widRows rows mc = max mc ((effWidth rows : Nat) : Int) := by
  intro rows
  induction rows with
  | nil => intro mc h; rw [widRows, effWidth]; omega
  | cons r rs ih =>
    intro mc h
    rw [widRows, effWidth, widAux_eq r 0 mc h, ih _ (by omega)]
    push_cast
    omega

/-- Scanning the written rows recovers the sparse views of the input rows
and the accumulated `max_col`. -/
theorem readRows_buildRows (shared : List String) :
    ∀ (rows : List (List String)) (rowIdx : Nat) (mc : Int),
      readRowsLoop shared (buildRowsLoop rowIdx rows) mc
        = (rows.map (sparseOfRow 0), widRows rows mc) := by
  intro rows
  induction rows with
  | nil => intro rowIdx mc; rfl
  | cons r rs ih =>
    intro rowIdx mc
    rw [buildRowsLoop, readRowsLoop]
    simp only [readCells_buildCells shared rowIdx r 0 mc, ih (rowIdx + 1), widRows,
      List.map_cons]

/-- Writing a table and reading it back yields each original row
materialized (padded with `""`, or truncated) to the common width
`effWidth rows`. -/
theorem read_write_round_trip (rows : List (List String)) :
    read_rows_from_workbook (write_rows_to_workbook rows)
      = ReadResult.ok (rows.map fun r =>
          (List.range (effWidth rows)).map fun j => r.getD j "") := by
  show ReadResult.ok (read_sheet_rows (read_shared_strings (write_rows_to_workbook rows))
    (buildRowsLoop 1 rows)) = _
  rw [show read_shared_strings (write_rows_to_workbook rows) = [] from rfl]
  rw [read_sheet_rows, readRows_buildRows [] rows 1 0, widRows_eq rows 0 le_rfl]
  have hw : (max (0 : Int) ((effWidth rows : Nat) : Int)).toNat = effWidth rows := by
    omega
  simp only [hw, List.map_map]
  refine congrArg ReadResult.ok (List.map_congr_left fun r _ => ?_)
  show (List.range (effWidth rows)).map
    (fun idx => (pyDictGet (sparseOfRow 0 r) (Int.ofNat idx)).getD "") = _
  refine List.map_congr_left fun j _ => ?_
  have h := pyDictGet_sparseOfRow r 0 j
  simpa [Int.ofNat_eq_natCast] using h

/-- The table predicted by the round-trip claim as stated: every original
row padded with `""` to the maximum row width of the original table. -/
def claimPadToMaxWidth (rows : List (List String)) : List (List String) :=
  rows.map fun r =>
    r ++ List.replicate (rows.foldl (fun a q => max a q.length) 0 - r.length) ""

/-- C1 counterexample: for the table `[[""]]` (one row, one cell holding
the empty string) the written row has no non-empty cell, so reading the
workbook back yields `[[]]`, not the claimed `[[""]]` padded to the
maximum row width 1. -/
theorem c1_counterexample :
    read_rows_from_workbook (write_rows_to_workbook [[""]])
      ≠ ReadResult.ok (claimPadToMaxWidth [[""]]) := by
  decide

/-- C1 (amended): writing a table and reading it back yields a table with
one row per original row, in which row `i` is original row `i` padded with
empty strings, or truncated, to the common width `effWidth rows` — the
maximum over all rows of one plus the position of the last non-empty cell
(`0` when every cell of the table is empty).  Trailing empty cells beyond
every row's last non-empty cell are not preserved; on tables whose widest
row ends in a non-empty cell this agrees with the claim as stated. -/
theorem c1_write_read_round_trip (rows : List (List String)) :
    read_rows_from_workbook (write_rows_to_workbook rows)
      = ReadResult.ok (rows.map fun r =>
          (List.range (effWidth rows)).map fun j => r.getD j "") :=
  read_write_round_trip rows

theorem lettersIndexLoop_takeWhile : ∀ (l : List Char) (a : Nat),
    lettersIndexLoop l a = lettersIndexLoop (l.takeWhile Char.isAlpha) a := by
  intro l
  induction l with
  | nil => intro a; rfl
  | cons c cs ih =>
    intro a
    by_cases hc : c.isAlpha
    · rw [lettersIndexLoop, if_pos hc, List.takeWhile_cons_of_pos hc, lettersIndexLoop,
        if_pos hc, ih]
    · rw [lettersIndexLoop, if_neg hc, List.takeWhile_cons_of_neg hc, lettersIndexLoop]

/-- C9: `column_letters_to_index` depends only on the longest alphabetic
prefix of its input (a trailing digit run as in a full cell reference like
"B12" is ignored), and returns `-1` on every input with no leading
alphabetic character, the empty string included. -/
theorem c9_letters_to_index_leading_alpha :
    (∀ s : String, column_letters_to_index s
        = column_letters_to_index ⟨s.data.takeWhile Char.isAlpha⟩) ∧
    column_letters_to_index "B12" = column_letters_to_index "B" ∧
    column_letters_to_index "B12" = 1 ∧
    (∀ s : String, (∀ c, s.data.head? = some c → c.isAlpha = false) →
        column_letters_to_index s = -1) := by
  refine ⟨?_, by decide, by decide, ?_⟩
  · intro s
    show (lettersIndexLoop s.data 0 : Int) - 1 = (lettersIndexLoop _ 0 : Int) - 1
    rw [lettersIndexLoop_takeWhile]
  · intro s h
    show (lettersIndexLoop s.data 0 : Int) - 1 = -1
    match hs : s.data with
    | [] => rfl
    | c :: cs =>
      have := h c (by rw [hs]; rfl)
      rw [lettersIndexLoop, if_neg (by simp [this])]
      rfl

theorem c9_witness :
    column_letters_to_index "12" = -1 ∧ column_letters_to_index "B12" = column_letters_to_index "B" :=
  ⟨c9_letters_to_index_leading_alpha.2.2.2 "12" (by decide),
    c9_letters_to_index_leading_alpha.2.1⟩

theorem pyListGet_out_of_range (l : List String) (i : Int)
    (h : (l.length : Int) ≤ i ∨ i < -(l.length : Int)) : pyListGet l i = none := by
  simp only [pyListGet]
  by_cases hi : i < 0
  · rw [if_pos hi,
      if_neg (by omega : ¬(0 ≤ (l.length : Int) + i ∧ (l.length : Int) + i < (l.length : Int)))]
  · rw [if_neg hi, if_neg (by omega : ¬(0 ≤ i ∧ i < (l.length : Int)))]

/-- C4: a shared-string cell whose value is unparseable as an integer, or
whose parsed index is out of range for the table (at or beyond its length,
or below minus its length, the range where Python's list subscription
raises `IndexError`), resolves to `""`; in particular a cell referencing
index 5 against a table of size 2 resolves to `""`.  The resolver is a
total function, so no error propagates. -/
theorem c4_shared_string_out_of_range :
    (∀ (shared : List String) (cell : CellElem), cell.t = some "s" →
        parseIntOpt cell.v = none → extract_cell_text cell shared = "") ∧
    (∀ (shared : List String) (cell : CellElem) (i : Int), cell.t = some "s" →
        parseIntOpt cell.v = some i →
        ((shared.length : Int) ≤ i ∨ i < -(shared.length : Int)) →
        extract_cell_text cell shared = "") ∧
    extract_cell_text { r := "A1", t := some "s", v := "5", isTexts := [] }
      ["Alpha", "Beta"] = "" := by
  refine ⟨?_, ?_, by decide⟩
  · rintro shared ⟨r, t, v, isT⟩ ht hp
    simp only at ht hp
    subst ht
    by_cases hv : v = "" <;> simp [extract_cell_text, hv, hp]
  · rintro shared ⟨r, t, v, isT⟩ i ht hp hrange
    simp only at ht hp
    subst ht
    have hv : v ≠ "" := by
      intro hveq
      rw [hveq, show parseIntOpt "" = none from rfl] at hp
      simp at hp
    simp [extract_cell_text, hv, hp, pyListGet_out_of_range shared i hrange]

theorem c4_witness :
    extract_cell_text { r := "A1", t := some "s", v := "x", isTexts := [] } ["Alpha"] = "" :=
  c4_shared_string_out_of_range.1 ["Alpha"] _ rfl (by decide)

/-- C10: a shared-string cell whose value parses to a negative integer
`-k` with `1 ≤ k ≤ L` (the table length) resolves, by Python's negative
indexing, to the table entry at position `L - k`; only indices below `-L`
fall back to `""`. -/
theorem c10_negative_shared_index :
    (∀ (shared : List String) (cell : CellElem) (k : Nat), 1 ≤ k → k ≤ shared.length →
        cell.t = some "s" → parseIntOpt cell.v = some (-(k : Int)) →
        extract_cell_text cell shared = shared.getD (shared.length - k) "") ∧
    (∀ (shared : List String) (cell : CellElem) (i : Int), cell.t = some "s" →
        parseIntOpt cell.v = some i → i < -(shared.length : Int) →
        extract_cell_text cell shared = "") := by
  constructor
  · rintro shared ⟨r, t, v, isT⟩ k hk1 hk2 ht hp
    simp only at ht hp
    subst ht
    have hv : v ≠ "" := by
      intro hveq
      rw [hveq, show parseIntOpt "" = none from rfl] at hp
      simp at hp
    have hget : pyListGet shared (-(k : Int)) = some (shared.getD (shared.length - k) "") := by
      simp only [pyListGet]
      have hj : (if -(k : Int) < 0 then (shared.length : Int) + -(k : Int) else -(k : Int))
          = (shared.length : Int) - k := by
        rw [if_pos (by omega)]
        ring
      rw [hj, if_pos (by constructor <;> omega)]
      have ht2 : ((shared.length : Int) - k).toNat = shared.length - k := by omega
      rw [ht2]
    simp [extract_cell_text, hv, hp, hget]
  · rintro shared ⟨r, t, v, isT⟩ i ht hp hi
    simp only at ht hp
    subst ht
    have hv : v ≠ "" := by
      intro hveq
      rw [hveq, show parseIntOpt "" = none from rfl] at hp
      simp at hp
    simp [extract_cell_text, hv, hp,
      pyListGet_out_of_range shared i (Or.inr hi)]

theorem c10_witness :
    extract_cell_text { r := "A1", t := some "s", v := "-1", isTexts := [] }
      ["Alpha", "Beta"] = "Beta" :=
  c10_negative_shared_index.1 ["Alpha", "Beta"]
    { r := "A1", t := some "s", v := "-1", isTexts := [] } 1
    (by decide) (by decide) rfl (by decide)

/-- C6: an archive without a worksheet entry at the sheet-1 location makes
`read_rows_from_workbook` fail with the (modelled) `PackageReadError`; no
partial table is returned. -/
theorem c6_missing_worksheet_error (zf : Archive) (h : zf.sheet1Part = none) :
    read_rows_from_workbook zf = ReadResult.error PackageReadError.missingWorksheet := by
  simp [read_rows_from_workbook, h]

theorem c6_witness :
    read_rows_from_workbook { sharedStringsPart := none, sheet1Part := none }
      = ReadResult.error PackageReadError.missingWorksheet :=
  c6_missing_worksheet_error _ rfl

/-- C8: an archive without a shared-strings entry gives
`read_shared_strings = []` (no error), and `read_rows_from_workbook` still
succeeds on it whenever the worksheet part is present, resolving the
sheet's cells against the empty shared table, i.e. from inline and raw
literal values only. -/
theorem c8_missing_shared_strings (zf : Archive) (h : zf.sharedStringsPart = none) :
    read_shared_strings zf = [] ∧
    (∀ sheet rowElems, zf.sheet1Part = some sheet → sheet.sheetData = some rowElems →
      read_rows_from_workbook zf = ReadResult.ok (read_sheet_rows [] rowElems)) ∧
    (∀ sheet, zf.sheet1Part = some sheet → sheet.sheetData = none →
      read_rows_from_workbook zf = ReadResult.ok []) := by
  have hs : read_shared_strings zf = [] := by simp [read_shared_strings, h]
  refine ⟨hs, ?_, ?_⟩
  · intro sheet rowElems h1 h2
    simp [read_rows_from_workbook, h1, h2, hs]
  · intro sheet h1 h2
    simp [read_rows_from_workbook, h1, h2]

theorem c8_witness :
    read_shared_strings { sharedStringsPart := none, sheet1Part := some { sheetData := some [] } }
        = [] ∧
    read_rows_from_workbook
        { sharedStringsPart := none, sheet1Part := some { sheetData := some [] } }
      = ReadResult.ok [] :=
  ⟨(c8_missing_shared_strings _ rfl).1,
    (c8_missing_shared_strings _ rfl).2.1 _ [] rfl rfl⟩

theorem alpha_toUpper_bounds (c : Char) (h : c.isAlpha = true) :
    65 ≤ c.toUpper.toNat ∧ c.toUpper.toNat ≤ 90 := by
  have hn : 65 ≤ c.toNat ∧ c.toNat ≤ 90 ∨ 97 ≤ c.toNat ∧ c.toNat ≤ 122 := by
    simpa [Char.isAlpha, Char.isUpper, Char.isLower, UInt32.le_def, BitVec.le_def,
      Char.toNat, UInt32.toNat] using h
  rw [Char.toUpper]
  by_cases hc : c.toNat ≥ 97 ∧ c.toNat ≤ 122
  · rw [if_pos hc]
    have hv : Nat.isValidChar (c.toNat - 32) := Or.inl (by omega)
    have he : (Char.ofNat (c.toNat - 32)).toNat = c.toNat - 32 := by
      unfold Char.ofNat
      rw [dif_pos hv]
      rfl
    rw [he]
    omega
  · rw [if_neg hc]
    omega

theorem lettersIndexLoop_pos : ∀ (cs : List Char) (acc : Nat), 1 ≤ acc →
    1 ≤ lettersIndexLoop cs acc := by
  intro cs
  induction cs with
  | nil => intro acc h; exact h
  | cons c cs ih =>
    intro acc h
    rw [lettersIndexLoop]
    by_cases hc : c.isAlpha
    · rw [if_pos hc]
      exact ih _ (by omega)
    · rw [if_neg hc]
      exact h

/-- A non-empty run of alphabetic characters decodes to a non-negative
column index. -/
theorem cli_nonneg_of_alpha (l : List Char) (hne : l ≠ [])
    (halpha : ∀ c ∈ l, c.isAlpha = true) : 0 ≤ column_letters_to_index ⟨l⟩ := by
  match l, hne with
  | c :: cs, _ =>
    show (0 : Int) ≤ (lettersIndexLoop (c :: cs) 0 : Nat) - 1
    have hc := halpha c (List.mem_cons_self c cs)
    rw [lettersIndexLoop, if_pos hc]
    have hup := (alpha_toUpper_bounds c hc).1
    have := lettersIndexLoop_pos cs (0 * 26 + (c.toUpper.toNat - 64)) (by omega)
    omega

/-- The column index the reader observes for one cell element: `none` when
the reference has no alphabetic characters (the cell is skipped). -/
def obsIdx (cell : CellElem) : Option Int :=
  if (cell.r.data.filter Char.isAlpha).isEmpty then none
  else some (column_letters_to_index ⟨cell.r.data.filter Char.isAlpha⟩)

theorem obsIdx_nonneg (cell : CellElem) (k : Int) (h : obsIdx cell = some k) : 0 ≤ k := by
  rw [obsIdx] at h
  by_cases hblank : (cell.r.data.filter Char.isAlpha).isEmpty
  · rw [if_pos hblank] at h; cases h
  · rw [if_neg hblank] at h
    have hk := Option.some.inj h
    subst hk
    refine cli_nonneg_of_alpha _ (by simpa using hblank) fun c hc => ?_
    exact List.of_mem_filter hc

/-- `max_col` accumulation over a list of observed column indices. -/
def maxColFold (l : List Int) (a : Int) : Int :=
  l.foldl (fun x i => max x (i + 1)) a

theorem maxColFold_ge : ∀ (l : List Int) (a : Int), a ≤ maxColFold l a := by
  intro l
  induction l with
  | nil => intro a; exact le_rfl
  | cons i l ih =>
    intro a
    calc a ≤ max a (i + 1) := le_max_left _ _
    _ ≤ maxColFold l (max a (i + 1)) := ih _

theorem maxColFold_dom : ∀ (l : List Int) (a : Int) (x : Int), x ∈ l →
    x + 1 ≤ maxColFold l a := by
  intro l
  induction l with
  | nil => intro a x hx; cases hx
  | cons i l ih =>
    intro a x hx
    rcases List.mem_cons.mp hx with h | h
    · subst h
      calc x + 1 ≤ max a (x + 1) := le_max_right _ _
      _ ≤ maxColFold l _ := maxColFold_ge _ _
    · exact ih _ x h

theorem maxColFold_attained : ∀ (l : List Int) (a : Int),
    maxColFold l a = a ∨ ∃ x ∈ l, maxColFold l a = x + 1 := by
  intro l
  induction l with
  | nil => intro a; exact Or.inl rfl
  | cons i l ih =>
    intro a
    have hstep : maxColFold (i :: l) a = maxColFold l (max a (i + 1)) := rfl
    rw [hstep]
    rcases ih (max a (i + 1)) with h | ⟨x, hx, hfx⟩
    · rcases max_choice a (i + 1) with hm | hm
      · exact Or.inl (h.trans hm)
      · exact Or.inr ⟨i, List.mem_cons_self i l, h.trans hm⟩
    · exact Or.inr ⟨x, List.mem_cons_of_mem i hx, hfx⟩

theorem maxColFold_append (l1 l2 : List Int) (a : Int) :
    maxColFold (l1 ++ l2) a = maxColFold l2 (maxColFold l1 a) := by
  simp only [maxColFold]
  rw [List.foldl_append]

theorem readCells_fst_indep (shared : List String) : ∀ (cs : List CellElem) (mc mc' : Int),
    (readCellsLoop shared cs mc).1 = (readCellsLoop shared cs mc').1 := by
  intro cs
  induction cs with
  | nil => intro mc mc'; rfl
  | cons cell cs ih =>
    intro mc mc'
    simp only [readCellsLoop]
    by_cases hblank : (cell.r.data.filter Char.isAlpha).isEmpty
    · rw [if_pos hblank, if_pos hblank]
      exact ih mc mc'
    · rw [if_neg hblank, if_neg hblank]
      simp only [List.cons.injEq, true_and]
      exact ih _ _

theorem readCells_snd (shared : List String) : ∀ (cs : List CellElem) (mc : Int),
    (readCellsLoop shared cs mc).2 = maxColFold (cs.filterMap obsIdx) mc := by
  intro cs
  induction cs with
  | nil => intro mc; rfl
  | cons cell cs ih =>
    intro mc
    simp only [readCellsLoop, List.filterMap_cons]
    by_cases hblank : (cell.r.data.filter Char.isAlpha).isEmpty
    · rw [if_pos hblank, obsIdx, if_pos hblank]
      exact ih mc
    · rw [if_neg hblank, obsIdx, if_neg hblank]
      exact ih _

theorem readCells_fst_keys (shared : List String) : ∀ (cs : List CellElem) (mc : Int),
    ∀ p ∈ (readCellsLoop shared cs mc).1, ∃ c ∈ cs, obsIdx c = some p.1 := by
  intro cs
  induction cs with
  | nil => intro mc p hp; cases hp
  | cons cell cs ih =>
    intro mc p hp
    simp only [readCellsLoop] at hp
    by_cases hblank : (cell.r.data.filter Char.isAlpha).isEmpty
    · rw [if_pos hblank] at hp
      obtain ⟨c, hc, ho⟩ := ih mc p hp
      exact ⟨c, List.mem_cons_of_mem cell hc, ho⟩
    · rw [if_neg hblank] at hp
      rcases List.mem_cons.mp hp with h | h
      · refine ⟨cell, List.mem_cons_self cell cs, ?_⟩
        rw [obsIdx, if_neg hblank, h]
      · obtain ⟨c, hc, ho⟩ := ih _ p h
        exact ⟨c, List.mem_cons_of_mem cell hc, ho⟩

theorem readRows_fst (shared : List String) : ∀ (rows : List RowElem) (mc : Int),
    (readRowsLoop shared rows mc).1
      = rows.map fun row => (readCellsLoop shared row.cells 0).1 := by
  intro rows
  induction rows with
  | nil => intro mc; rfl
  | cons row rs ih =>
    intro mc
    simp only [readRowsLoop, List.map_cons, List.cons.injEq]
    exact ⟨readCells_fst_indep shared row.cells mc 0, ih _⟩

/-- All column indices observed in any cell reference anywhere in the
sheet, in scan order. -/
def observedIndices (rowElems : List RowElem) : List Int :=
  ((rowElems.map RowElem.cells).flatten).filterMap obsIdx

theorem readRows_snd (shared : List String) : ∀ (rows : List RowElem) (mc : Int),
    (readRowsLoop shared rows mc).2 = maxColFold (observedIndices rows) mc := by
  intro rows
  induction rows with
  | nil => intro mc; rfl
  | cons row rs ih =>
    intro mc
    simp only [readRowsLoop, observedIndices, List.map_cons, List.flatten_cons,
      List.filterMap_append, maxColFold_append]
    rw [ih, readCells_snd]
    rfl

theorem observedIndices_nonneg (rowElems : List RowElem) :
    ∀ x ∈ observedIndices rowElems, 0 ≤ x := by
  intro x hx
  obtain ⟨c, _, hc⟩ := List.mem_filterMap.mp hx
  exact obsIdx_nonneg c x hc

/-- C3: on a successful read, every materialized row has the same length,
equal to one plus the maximum column index observed in any cell reference
anywhere in the sheet (width 0 when no cell reference is observed), and
every position of a row at which no cell element was observed holds `""`. -/
theorem c3_dense_row_materialization (zf : Archive) (sheet : SheetElem)
    (rowElems : List RowElem)
    (h1 : zf.sheet1Part = some sheet) (h2 : sheet.sheetData = some rowElems) :
    ∃ table, read_rows_from_workbook zf = ReadResult.ok table ∧
      table.length = rowElems.length ∧
      (∀ row1 ∈ table, ∀ row2 ∈ table, row1.length = row2.length) ∧
      (∀ row ∈ table, ∀ x ∈ observedIndices rowElems, x + 1 ≤ (row.length : Int)) ∧
      (observedIndices rowElems ≠ [] → ∀ row ∈ table,
        ∃ x ∈ observedIndices rowElems, (row.length : Int) = x + 1 ∧
          ∀ y ∈ observedIndices rowElems, y ≤ x) ∧
      (observedIndices rowElems = [] → ∀ row ∈ table, row.length = 0) ∧
      (∀ i j, i < rowElems.length → j < (table.getD i []).length →
        (∀ c ∈ (rowElems.getD i { r := "", cells := [] }).cells,
          obsIdx c ≠ some (Int.ofNat j)) →
        (table.getD i []).getD j "" = "") := by
  have hread : read_rows_from_workbook zf
      = ReadResult.ok (read_sheet_rows (read_shared_strings zf) rowElems) := by
    simp [read_rows_from_workbook, h1, h2]
  set shared := read_shared_strings zf with hsh
  set W : Int := (readRowsLoop shared rowElems 0).2 with hWdef
  have hW : W = maxColFold (observedIndices rowElems) 0 := readRows_snd shared rowElems 0
  have hW0 : 0 ≤ W := by rw [hW]; exact maxColFold_ge _ 0
  set table := read_sheet_rows shared rowElems with htab
  have htable : table = (readRowsLoop shared rowElems 0).1.map fun mapping =>
      (List.range W.toNat).map fun idx => (pyDictGet mapping (Int.ofNat idx)).getD "" := rfl
  have hrowlen : ∀ row ∈ table, row.length = W.toNat := by
    intro row hrow
    rw [htable] at hrow
    obtain ⟨m, _, hm⟩ := List.mem_map.mp hrow
    rw [← hm]
    simp
  refine ⟨table, hread, ?_, ?_, ?_, ?_, ?_, ?_⟩
  · rw [htable, List.length_map, readRows_fst, List.length_map]
  · intro row1 hrow1 row2 hrow2
    rw [hrowlen row1 hrow1, hrowlen row2 hrow2]
  · intro row hrow x hx
    have := maxColFold_dom (observedIndices rowElems) 0 x hx
    rw [hrowlen row hrow]
    omega
  · intro hne row hrow
    rcases maxColFold_attained (observedIndices rowElems) 0 with hat | ⟨x, hx, hfx⟩
    · exfalso
      obtain ⟨x, hx⟩ := List.exists_mem_of_ne_nil _ hne
      have hd := maxColFold_dom (observedIndices rowElems) 0 x hx
      have hnn := observedIndices_nonneg rowElems x hx
      rw [hat] at hd
      omega
    · refine ⟨x, hx, ?_, ?_⟩
      · rw [hrowlen row hrow]
        have hWx : W = x + 1 := hW.trans hfx
        omega
      · intro y hy
        have hd := maxColFold_dom (observedIndices rowElems) 0 y hy
        rw [hfx] at hd
        omega
  · intro hobs row hrow
    rw [hrowlen row hrow, hW, hobs]
    rfl
  · intro i j hi hj hnone
    have hmapsi : (readRowsLoop shared rowElems 0).1[i]?
        = some ((readCellsLoop shared (rowElems.getD i { r := "", cells := [] }).cells 0).1) := by
      rw [readRows_fst, List.getElem?_map, List.getElem?_eq_getElem hi]
      simp [List.getD_eq_getElem?_getD, List.getElem?_eq_getElem hi]
    have htgd : table.getD i []
        = (List.range W.toNat).map fun idx =>
            (pyDictGet ((readCellsLoop shared
              (rowElems.getD i { r := "", cells := [] }).cells 0).1) (Int.ofNat idx)).getD "" := by
      rw [htable, List.getD_eq_getElem?_getD, List.getElem?_map, hmapsi]
      rfl
    rw [htgd] at hj ⊢
    rw [List.length_map, List.length_range] at hj
    rw [List.getD_eq_getElem?_getD, List.getElem?_map, List.getElem?_range hj]
    have hget : pyDictGet ((readCellsLoop shared
        (rowElems.getD i { r := "", cells := [] }).cells 0).1) (Int.ofNat j) = none := by
      refine foldl_get_no_match _ _ none fun p hp => ?_
      obtain ⟨c, hc, ho⟩ := readCells_fst_keys shared _ 0 p hp
      intro hpk
      exact hnone c hc (by rw [ho, hpk])
    have hget2 := hget
    simp only [List.getD_eq_getElem?_getD, Int.ofNat_eq_natCast] at hget2
    simp [hget2]

/-- A one-row sheet with a single raw-literal cell at `B1`. -/
def rowsC3 : List RowElem :=
  [{ r := "1", cells := [{ r := "B1", t := none, v := "x", isTexts := [] }] }]

def sheetC3 : SheetElem := { sheetData := some rowsC3 }

def zfC3 : Archive := { sharedStringsPart := none, sheet1Part := some sheetC3 }

theorem c3_witness :
    ∃ table, read_rows_from_workbook zfC3 = ReadResult.ok table ∧
      table.length = rowsC3.length ∧
      (∀ row1 ∈ table, ∀ row2 ∈ table, row1.length = row2.length) ∧
      (∀ row ∈ table, ∀ x ∈ observedIndices rowsC3, x + 1 ≤ (row.length : Int)) ∧
      (observedIndices rowsC3 ≠ [] → ∀ row ∈ table,
        ∃ x ∈ observedIndices rowsC3, (row.length : Int) = x + 1 ∧
          ∀ y ∈ observedIndices rowsC3, y ≤ x) ∧
      (observedIndices rowsC3 = [] → ∀ row ∈ table, row.length = 0) ∧
      (∀ i j, i < rowsC3.length → j < (table.getD i []).length →
        (∀ c ∈ (rowsC3.getD i { r := "", cells := [] }).cells,
          obsIdx c ≠ some (Int.ofNat j)) →
        (table.getD i []).getD j "" = "") :=
  c3_dense_row_materialization zfC3 sheetC3 rowsC3 rfl rfl

/-- The three fixed lines opening the worksheet part (source lines
448–452); the `worksheet` element line is one string in the source,
written there as two adjacent literals. -/
def sheetHeaderLines : List String :=
  ["<?xml version=\"1.0\" encoding=\"UTF-8\" standalone=\"yes\"?>",
   "<worksheet xmlns=\"http://schemas.openxmlformats.org/spreadsheetml/2006/main\" xmlns:r=\"http://schemas.openxmlformats.org/officeDocument/2006/relationships\">",
   "  <sheetData>"]

/-- One serialized inline-string cell (source lines 456–464): the address
is `column_index_to_letters colIdx` concatenated with the row number, and
the text is the XML-escaped value. -/
def cellLineXml (rowIdx colIdx : Nat) (value : String) : String :=
  "      <c r=\"" ++ column_index_to_letters colIdx ++ toString rowIdx
    ++ "\" t=\"inlineStr\"><is><t xml:space=\"preserve\">" ++ escapeXml value
    ++ "</t></is></c>"

/-- The `cells_xml` accumulation for one row (source lines 454–464),
0-based rendering of `enumerate(row, start=1)` with `col_idx - 1`. -/
def cellLinesLoop (rowIdx : Nat) : Nat → List String → List String
  | _, [] => []
  | colIdx, v :: vs =>
    if v = "" then cellLinesLoop rowIdx (colIdx + 1) vs
    else cellLineXml rowIdx colIdx v :: cellLinesLoop rowIdx (colIdx + 1) vs

/-- The lines one input row contributes (source lines 465–470): an open
tag, the cell lines and a close tag when the row has any serialized cell,
and a single self-closing row line otherwise. -/
def rowLinesXml (rowIdx : Nat) (row : List String) : List String :=
  let cells_xml := cellLinesLoop rowIdx 0 row
  if cells_xml.isEmpty then ["    <row r=\"" ++ toString rowIdx ++ "\"/>"]
  else ("    <row r=\"" ++ toString rowIdx ++ "\">") :: cells_xml ++ ["    </row>"]

/-- The row loop of `build_sheet_xml` (source line 452), rows numbered
from 1. -/
def sheetRowsLines : Nat → List (List String) → List String
  | _, [] => []
  | rowIdx, row :: rest => rowLinesXml rowIdx row ++ sheetRowsLines (rowIdx + 1) rest

/-- Python's `"\n".join`. -/
def joinNl : List String → String
  | [] => ""
  | [line] => line
  | line :: rest => line ++ "\n" ++ joinNl rest

/-- `build_sheet_xml` (source lines 445–475) as the text of the worksheet
part (the source then encodes it as UTF-8 bytes). -/
def build_sheet_xml (rows : List (List String)) : String :=
  joinNl (sheetHeaderLines ++ sheetRowsLines 1 rows ++ ["  </sheetData>", "</worksheet>"])

/-- The lines the claim predicts for one input row: the row element
carries the 1-based row number, and exactly the non-empty cells appear,
each at the address formed from its 0-based column index and the row
number; a row with no non-empty cells is still present, self-closed. -/
def specRowBlock (rowIdx : Nat) (row : List String) : List String :=
  if (((List.enumFrom 0 row).filter fun p => p.2 ≠ "").map
      fun p => cellLineXml rowIdx p.1 p.2).isEmpty then
    ["    <row r=\"" ++ toString rowIdx ++ "\"/>"]
  else
    ("    <row r=\"" ++ toString rowIdx ++ "\">")
      :: (((List.enumFrom 0 row).filter fun p => p.2 ≠ "").map
          fun p => cellLineXml rowIdx p.1 p.2)
      ++ ["    </row>"]

theorem cellLinesLoop_enum (rowIdx : Nat) : ∀ (row : List String) (colIdx : Nat),
    cellLinesLoop rowIdx colIdx row
      = ((List.enumFrom colIdx row).filter fun p => p.2 ≠ "").map
          fun p => cellLineXml rowIdx p.1 p.2 := by
  intro row
  induction row with
  | nil => intro colIdx; rfl
  | cons v vs ih =>
    intro colIdx
    rw [cellLinesLoop,
      show List.enumFrom colIdx (v :: vs) = (colIdx, v) :: List.enumFrom (colIdx + 1) vs
        from rfl]
    by_cases hv : v = ""
    · rw [if_pos hv, List.filter_cons_of_neg (by simpa using hv), ih]
    · rw [if_neg hv, List.filter_cons_of_pos (by simpa using hv), List.map_cons, ih]

theorem sheetRowsLines_enum : ∀ (rows : List (List String)) (rowIdx : Nat),
    sheetRowsLines rowIdx rows
      = ((List.enumFrom rowIdx rows).map fun p => specRowBlock p.1 p.2).flatten := by
  intro rows
  induction rows with
  | nil => intro rowIdx; rfl
  | cons row rest ih =>
    intro rowIdx
    rw [sheetRowsLines,
      show List.enumFrom rowIdx (row :: rest) = (rowIdx, row) :: List.enumFrom (rowIdx + 1) rest
        from rfl, List.map_cons, List.flatten_cons, ih]
    congr 1
    rw [rowLinesXml, specRowBlock]
    simp only [cellLinesLoop_enum]

/-- C5: the worksheet part built for a table consists of the fixed header
lines, then, for the i-th input row (1-based), one row element numbered i
holding exactly the cell lines of that row's non-empty cells — each an
inline-string cell whose address is `column_index_to_letters` of its
0-based column index concatenated with the row number, empty cells being
omitted entirely, and a row with no non-empty cells being emitted as a
self-closed (still present) row element — then the fixed footer lines. -/
theorem c5_sheet_xml_structure (rows : List (List String)) :
    build_sheet_xml rows
      = joinNl (sheetHeaderLines
          ++ ((List.enumFrom 1 rows).map fun p => specRowBlock p.1 p.2).flatten
          ++ ["  </sheetData>", "</worksheet>"]) := by
  rw [build_sheet_xml, sheetRowsLines_enum]

theorem infix_append_left_of (xs zs ys : List Char) (h : xs <:+: zs) :
    xs <:+: ys ++ zs := by
  obtain ⟨s, t, hst⟩ := h
  exact ⟨ys ++ s, t, by rw [← hst]; simp⟩

theorem mem_joinNl_infix : ∀ (lines : List String) (line : String), line ∈ lines →
    line.data <:+: (joinNl lines).data := by
  intro lines
  induction lines with
  | nil => intro line h; cases h
  | cons l rest ih =>
    intro line h
    match rest with
    | [] =>
      rcases List.mem_cons.mp h with h1 | h1
      · subst h1; exact List.infix_rfl
      · cases h1
    | r :: rs =>
      rcases List.mem_cons.mp h with h1 | h1
      · subst h1
        show line.data <:+: (line ++ "\n" ++ joinNl (r :: rs)).data
        refine ⟨[], ("\n" ++ joinNl (r :: rs)).data, ?_⟩
        simp [String.data_append]
      · have hin := ih line h1
        show line.data <:+: (l ++ "\n" ++ joinNl (r :: rs)).data
        have hd : (l ++ "\n" ++ joinNl (r :: rs)).data
            = (l ++ "\n").data ++ (joinNl (r :: rs)).data := by
          simp [String.data_append]
        rw [hd]
        exact infix_append_left_of _ _ _ hin

theorem cellLine_mem_cellLinesLoop (rowIdx : Nat) : ∀ (row : List String) (colIdx j : Nat),
    row.getD j "" ≠ "" →
    cellLineXml rowIdx (colIdx + j) (row.getD j "") ∈ cellLinesLoop rowIdx colIdx row := by
  intro row
  induction row with
  | nil => intro colIdx j h; simp at h
  | cons v vs ih =>
    intro colIdx j h
    rw [cellLinesLoop]
    match j with
    | 0 =>
      have hv : v ≠ "" := by simpa using h
      rw [if_neg hv]
      simp
    | j' + 1 =>
      have h' : vs.getD j' "" ≠ "" := by simpa using h
      have hmem := ih (colIdx + 1) j' h'
      have harith : colIdx + (j' + 1) = (colIdx + 1) + j' := by omega
      by_cases hv : v = ""
      · rw [if_pos hv, harith]
        simpa using hmem
      · rw [if_neg hv, harith]
        exact List.mem_cons_of_mem _ (by simpa using hmem)

theorem cellLine_mem_sheetRows : ∀ (rows : List (List String)) (rowIdx i j : Nat),
    (rows.getD i []).getD j "" ≠ "" →
    cellLineXml (rowIdx + i) j ((rows.getD i []).getD j "")
      ∈ sheetRowsLines rowIdx rows := by
  intro rows
  induction rows with
  | nil => intro rowIdx i j h; simp at h
  | cons row rest ih =>
    intro rowIdx i j h
    rw [sheetRowsLines]
    match i with
    | 0 =>
      have h0 : row.getD j "" ≠ "" := by simpa using h
      refine List.mem_append.mpr (Or.inl ?_)
      have hmem := cellLine_mem_cellLinesLoop rowIdx row 0 j h0
      rw [rowLinesXml]
      have hne : ¬(cellLinesLoop rowIdx 0 row).isEmpty = true := by
        cases hcl : cellLinesLoop rowIdx 0 row
        · rw [hcl] at hmem; cases hmem
        · simp
      rw [if_neg hne]
      refine List.mem_cons_of_mem _ (List.mem_append.mpr (Or.inl ?_))
      simpa using hmem
    | i' + 1 =>
      have h' : (rest.getD i' []).getD j "" ≠ "" := by simpa using h
      have hmem := ih (rowIdx + 1) i' j h'
      refine List.mem_append.mpr (Or.inr ?_)
      have harith : rowIdx + (i' + 1) = (rowIdx + 1) + i' := by omega
      rw [harith]
      simpa using hmem

theorem escape_infix_cellLine (rowIdx colIdx : Nat) (v : String) :
    (escapeXml v).data <:+: (cellLineXml rowIdx colIdx v).data := by
  refine ⟨("      <c r=\"" ++ column_index_to_letters colIdx ++ toString rowIdx
    ++ "\" t=\"inlineStr\"><is><t xml:space=\"preserve\">").data, ("</t></is></c>").data, ?_⟩
  rw [cellLineXml]
  simp [String.data_append]

theorem rowWidFrom_gt : ∀ (r : List String) (colIdx j : Nat), r.getD j "" ≠ "" →
    colIdx + j < rowWidFrom colIdx r := by
  intro r
  induction r with
  | nil => intro colIdx j h; simp at h
  | cons v vs ih =>
    intro colIdx j h
    rw [rowWidFrom]
    match j with
    | 0 =>
      have hv : v ≠ "" := by simpa using h
      rw [if_neg hv]
      have := le_max_left (colIdx + 1) (rowWidFrom (colIdx + 1) vs)
      omega
    | j' + 1 =>
      have h' : vs.getD j' "" ≠ "" := by simpa using h
      have hlt := ih (colIdx + 1) j' h'
      by_cases hv : v = ""
      · rw [if_pos hv]
        omega
      · rw [if_neg hv]
        have := le_max_right (colIdx + 1) (rowWidFrom (colIdx + 1) vs)
        omega

theorem effWidth_ge_row : ∀ (rows : List (List String)) (i : Nat), i < rows.length →
    rowWidFrom 0 (rows.getD i []) ≤ effWidth rows := by
  intro rows
  induction rows with
  | nil => intro i h; cases h
  | cons row rest ih =>
    intro i h
    rw [effWidth]
    match i with
    | 0 =>
      simp
    | i' + 1 =>
      have := ih i' (by simpa using h)
      have hm := le_max_right (rowWidFrom 0 row) (effWidth rest)
      simp only [List.getD_cons_succ]
      omega

/-- Reading back the written workbook preserves every non-empty cell at
its original position. -/
theorem read_back_at (rows : List (List String)) (i j : Nat)
    (h : (rows.getD i []).getD j "" ≠ "") :
    ∃ table, read_rows_from_workbook (write_rows_to_workbook rows) = ReadResult.ok table ∧
      (table.getD i []).getD j "" = (rows.getD i []).getD j "" := by
  refine ⟨_, read_write_round_trip rows, ?_⟩
  have hi : i < rows.length := by
    by_contra hge
    push_neg at hge
    have hnil : rows.getD i [] = [] := by
      rw [List.getD_eq_getElem?_getD, List.getElem?_eq_none hge]
      rfl
    rw [hnil] at h
    simp at h
  have hj : j < effWidth rows := by
    have h1 := rowWidFrom_gt (rows.getD i []) 0 j h
    have h2 := effWidth_ge_row rows i hi
    omega
  have htgd : (rows.map fun r => (List.range (effWidth rows)).map fun jn => r.getD jn "").getD i []
      = (List.range (effWidth rows)).map fun jn => (rows.getD i []).getD jn "" := by
    rw [List.getD_eq_getElem?_getD, List.getElem?_map, List.getElem?_eq_getElem hi]
    simp [List.getD_eq_getElem?_getD, List.getElem?_eq_getElem hi]
  rw [htgd, List.getD_eq_getElem?_getD, List.getElem?_map, List.getElem?_range hj]
  rfl

/-- C7: strings containing `&`, `<` or `>` are XML-escaped in the written
worksheet part — the escaped text occurs verbatim in the part — and
reading the written workbook back yields the original unescaped string
unchanged at its cell position; in particular `escape` sends `A&B<C>` to
`A&amp;B&lt;C&gt;`. -/
theorem c7_escaping_round_trip :
    escapeXml "A&B<C>" = "A&amp;B&lt;C&gt;" ∧
    (∀ (rows : List (List String)) (i j : Nat), (rows.getD i []).getD j "" ≠ "" →
      (escapeXml ((rows.getD i []).getD j "")).data <:+: (build_sheet_xml rows).data) ∧
    (∀ (rows : List (List String)) (i j : Nat), (rows.getD i []).getD j "" ≠ "" →
      ∃ table, read_rows_from_workbook (write_rows_to_workbook rows) = ReadResult.ok table ∧
        (table.getD i []).getD j "" = (rows.getD i []).getD j "") := by
  refine ⟨by decide, ?_, read_back_at⟩
  intro rows i j h
  have hmem := cellLine_mem_sheetRows rows 1 i j h
  have hlines : cellLineXml (1 + i) j ((rows.getD i []).getD j "")
      ∈ sheetHeaderLines ++ sheetRowsLines 1 rows ++ ["  </sheetData>", "</worksheet>"] := by
    refine List.mem_append.mpr (Or.inl (List.mem_append.mpr (Or.inr hmem)))
  have hinfix := mem_joinNl_infix _ _ hlines
  exact (escape_infix_cellLine (1 + i) j _).trans hinfix

theorem c7_witness :
    (([["A&B<C>"]].getD 0 []).getD 0 "" ≠ "") ∧
    (escapeXml (([["A&B<C>"]].getD 0 []).getD 0 "")).data
      <:+: (build_sheet_xml [["A&B<C>"]]).data ∧
    ∃ table, read_rows_from_workbook (write_rows_to_workbook [["A&B<C>"]])
        = ReadResult.ok table ∧
      (table.getD 0 []).getD 0 "" = ([["A&B<C>"]].getD 0 []).getD 0 "" :=
  ⟨by decide, c7_escaping_round_trip.2.1 [["A&B<C>"]] 0 0 (by decide),
    c7_escaping_round_trip.2.2 [["A&B<C>"]] 0 0 (by decide)⟩
